import Mathlib

/-!
Verification development for the wordle-checker repository (src/app.py).

The Python source is shallowly embedded: words are lists of characters,
Python dicts keyed by position become association lists in insertion
order, Python sets become lists used only through membership, and the
float scores of the frequency scorer are idealised as exact rationals.
Python's stable `sort`/`sorted` is embedded as `List.insertionSort`,
which is a stable sort producing the same list for the total orders
used here.
-/

namespace WordleChecker

/-- A word is a list of characters (Python `str`). -/
abbrev Word := List Char

/-- The parsed-constraint dictionary produced by `parse_input` and
`process_wordle_screenshot` in src/app.py: green/yellow are
position-to-letter dicts (association lists in insertion order), grey is
a set of letters (list used via membership). -/
structure Parsed where
  word : Word
  green : List (Nat × Char)
  yellow : List (Nat × Char)
  grey : List Char
  extra_count : Nat
deriving Repr, DecidableEq

/-- Source `raw_input.rstrip('+')`: drop the trailing run of `+` characters. -/
def rstripPlus (s : List Char) : List Char :=
  (s.reverse.dropWhile (fun c => c = '+')).reverse

/-- The scanning loop of `parse_input` (src/app.py lines 436-461).
State: remaining input, current position `pos`, and the accumulated
green/yellow assoc lists, grey letters and word characters.  The source
condition `ch == '(' and i + 2 < len(clean_input) and
clean_input[i + 2] == ')'` is rendered as the three-character pattern
plus the `d = ')'` test; when the `(letter)` pattern does not match, `(`
is not alphabetic and is skipped without consuming a position, exactly
as in the source's fall-through. -/
def parseLoop : List Char → Nat → List (Nat × Char) → List (Nat × Char) →
    List Char → List Char →
    List (Nat × Char) × List (Nat × Char) × List Char × List Char
  | [], _, green, yellow, grey, word => (green, yellow, grey, word)
  | '(' :: y :: d :: rest, pos, green, yellow, grey, word =>
    if d = ')' then
      parseLoop rest (pos + 1) green (yellow ++ [(pos, y.toUpper)]) grey
        (word ++ [y.toUpper])
    else
      parseLoop (y :: d :: rest) pos green yellow grey word
  | c :: rest, pos, green, yellow, grey, word =>
    if c.isAlpha then
      if c.isUpper then
        parseLoop rest (pos + 1) (green ++ [(pos, c.toUpper)]) yellow grey
          (word ++ [c.toUpper])
      else
        parseLoop rest (pos + 1) green yellow (grey ++ [c.toUpper])
          (word ++ [c.toUpper])
    else
      parseLoop rest pos green yellow grey word
termination_by structural l => l

/-- Source `parse_input` (src/app.py lines 408-476).  Strips the trailing `+`
run (3 extra suggestions each), scans the input assigning positions to
annotated letters, and finally removes from grey any letter that also
occurs as a yellow or green value. -/
def parse_input (raw : List Char) : Parsed :=
  let clean := rstripPlus raw
  let extra_count := (raw.length - clean.length) * 3
  let r := parseLoop clean 0 [] [] [] []
  let green := r.1
  let yellow := r.2.1
  let greyRaw := r.2.2.1
  let word := r.2.2.2
  let yellowLetters := yellow.map Prod.snd
  let greenLetters := green.map Prod.snd
  let grey := greyRaw.filter (fun c => c ∉ yellowLetters ∧ c ∉ greenLetters)
  { word := word, green := green, yellow := yellow, grey := grey,
    extra_count := extra_count }

/-- First-match association-list lookup, rendering Python dict access
(`d[k]`, `k in d`); the dicts built by this code never repeat a key. -/
def lookupPos (k : Nat) : List (Nat × Char) → Option Char
  | [] => none
  | (k', v) :: rest => if k = k' then some v else lookupPos k rest

/-- Python `enumerate`, starting at `n`. -/
def enumerate (n : Nat) : List Char → List (Nat × Char)
  | [] => []
  | c :: rest => (n, c) :: enumerate (n + 1) rest

/-- The green-pattern test of `filter_candidates` (src/app.py lines
494-509): the compiled regex `^p0p1p2p3p4$` where `pi` is the green
letter at position `i` when `i` is a green key and `.` otherwise.  A
regex `.` matches any character except a newline, and the anchored
5-character pattern additionally forces the word length to be 5. -/
def greenPatternOk (green : List (Nat × Char)) (w : Word) : Bool :=
  (w.length == 5) &&
  (List.range 5).all (fun i =>
    match lookupPos i green with
    | some c => w.get? i == some c
    | none => !(w.get? i == some '\n'))

/-- The per-word keep condition of the loop in `filter_candidates`
(src/app.py lines 507-528): green pattern, no grey letter, all yellow
letters present, and no yellow letter still at its annotated position.
The source guards the last rule with `pos < len(word)`; `w.get? pos`
is `none` for out-of-range `pos`, which renders the guard exactly. -/
def candOk (p : Parsed) (w : Word) : Bool :=
  greenPatternOk p.green w &&
  !(p.grey.any (fun c => w.contains c)) &&
  (p.yellow.map Prod.snd).all (fun c => w.contains c) &&
  p.yellow.all (fun pc => !(w.get? pc.1 == some pc.2))

/-- Source `filter_candidates` (src/app.py lines 483-530).  The source computes
`available = load_wordlist() - get_past_answers()` from its external
corpus and archive providers; the embedding takes that set as the
explicit list `available`.  Python's `sorted` is rendered as
`insertionSort` by `≤` (lexicographic on characters), which produces the
same, unique, ascending-sorted permutation. -/
def filter_candidates (available : List Word) (p : Parsed) : List Word :=
  List.insertionSort (· ≤ ·) (available.filter (candOk p))

/-- Source `analyze_position_frequencies` (src/app.py lines 533-541).  The dict
maps every position `i < 5` not in `locked` to a `Counter` of the
letters of the candidates at position `i`; a `Counter` is represented by
the list of letters it counts (`counter[c]` = `count c`, `sum(values())`
= `length`, `c in counter` = membership). -/
def analyze_position_frequencies (candidates : List Word)
    (locked : List (Nat × Char)) : Nat → Option (List Char) :=
  fun i =>
    if i < 5 && (lookupPos i locked).isNone then
      some (candidates.filterMap (fun w => w.get? i))
    else none

/-- The loop of `score_suggestion` (src/app.py lines 544-566) over the
enumerated word, carrying the `seen` set and the running score.  Floats
are idealised as exact rationals. -/
def scoreLoop (position_freq : Nat → Option (List Char)) (tested : List Char)
    (locked : List (Nat × Char)) :
    List (Nat × Char) → List Char → ℚ → ℚ
  | [], _, score => score
  | (i, ch) :: rest, seen, score =>
    if (lookupPos i locked).isSome then
      scoreLoop position_freq tested locked rest seen score
    else
      let score1 := if ch ∈ seen then score - 5 else score
      let seen1 := ch :: seen
      if ch ∈ tested then
        scoreLoop position_freq tested locked rest seen1 score1
      else
        match position_freq i with
        | some letters =>
          if ch ∈ letters then
            if 0 < letters.length then
              scoreLoop position_freq tested locked rest seen1
                (score1 + (letters.count ch : ℚ) / (letters.length : ℚ) * 10)
            else
              scoreLoop position_freq tested locked rest seen1 score1
          else
            scoreLoop position_freq tested locked rest seen1 score1
        | none => scoreLoop position_freq tested locked rest seen1 score1

/-- Source `score_suggestion` (src/app.py lines 544-566). -/
def score_suggestion (word : Word) (position_freq : Nat → Option (List Char))
    (tested : List Char) (locked : List (Nat × Char)) : ℚ :=
  scoreLoop position_freq tested locked (enumerate 0 word) [] 0

/-- Source `find_best_suggestions` (src/app.py lines 569-591).  The source
pairs each candidate with its score, stably sorts the pairs by the key
`-score`, and projects back to words; the embedding stably sorts the
candidate list by the same key directly, which yields the same word
list.  `insertionSort` is stable for the total preorder used. -/
def find_best_suggestions (available : List Word) (parsed : Parsed) :
    List Word :=
  let candidates := filter_candidates available parsed
  if candidates.isEmpty then []
  else
    let position_freq := analyze_position_frequencies candidates parsed.green
    let tested := parsed.grey ++ parsed.yellow.map Prod.snd ++
      parsed.green.map Prod.snd
    List.insertionSort
      (fun a b =>
        score_suggestion b position_freq tested parsed.green ≤
          score_suggestion a position_freq tested parsed.green)
      candidates

/-- The `+` branch of `sms_reply` (src/app.py lines 889-919): given the
stored ranked `suggestions` and cursor `index` of the session and the
number of `+` characters received, return the shown batch and the new
stored cursor.  The source stores `current_index + count` whenever the
batch is non-empty, and leaves the session untouched (replying "no more
suggestions") when the batch is empty. -/
def showMore (suggestions : List Word) (index : Nat) (plusCount : Nat) :
    List Word × Nat :=
  let count := plusCount * 3
  let next_batch := (suggestions.drop index).take count
  if next_batch.isEmpty then (next_batch, index)
  else (next_batch, index + count)

/-- The three classification strings returned by `classify_color`. -/
def greenStr : String := "green"

def yellowStr : String := "yellow"

def greyStr : String := "grey"

/-- An RGB triple; channels are unbounded integers (the source accepts
any Python ints). -/
abbrev RGB := Int × Int × Int

/-- Source `color_distance` squared (src/app.py lines 142-144).  The source
compares the Euclidean distance (`** 0.5`) against the thresholds 50
and 80; every such comparison is embedded on squared distances (2500,
6400), which is equivalent because the square root is strictly
monotone. -/
def color_distance_sq (c1 c2 : RGB) : Int :=
  (c1.1 - c2.1) ^ 2 + (c1.2.1 - c2.2.1) ^ 2 + (c1.2.2 - c2.2.2) ^ 2

/-- Source `WORDLE_COLORS` (src/app.py lines 120-140), flattened in the dict
iteration order green, yellow, grey, keeping each reference list's
order. -/
def WORDLE_COLORS : List (String × RGB) :=
  [(greenStr, (83, 141, 78)), (greenStr, (106, 170, 100)),
   (greenStr, (97, 140, 85)), (greenStr, (83, 141, 78)),
   (yellowStr, (181, 159, 59)), (yellowStr, (201, 180, 88)),
   (yellowStr, (177, 160, 76)), (yellowStr, (196, 180, 84)),
   (greyStr, (120, 124, 126)), (greyStr, (121, 124, 126)),
   (greyStr, (58, 58, 60)), (greyStr, (134, 136, 138)),
   (greyStr, (162, 162, 162))]

/-- The reference scan of `classify_color` (src/app.py lines 148-156):
running minimum distance (`none` renders the initial `float('inf')`)
and current best category, updated on strict improvement only. -/
def classifyLoop (rgb : RGB) :
    List (String × RGB) → Option Int × String → Option Int × String
  | [], acc => acc
  | (name, ref) :: rest, (minD, best) =>
    let d := color_distance_sq rgb ref
    match minD with
    | none => classifyLoop rgb rest (some d, name)
    | some m =>
      if d < m then classifyLoop rgb rest (some d, name)
      else classifyLoop rgb rest (some m, best)

/-- The hue heuristic of `classify_color` (src/app.py lines 159-166). -/
def hueFallback (rgb : RGB) : String :=
  if rgb.2.1 > rgb.1 ∧ rgb.2.1 > rgb.2.2 ∧ rgb.2.1 > 100 then greenStr
  else if rgb.1 > 150 ∧ rgb.2.1 > 150 ∧ rgb.2.2 < 150 then yellowStr
  else greyStr

/-- Source `classify_color` (src/app.py lines 146-168). -/
def classify_color (rgb : RGB) : String :=
  let r := classifyLoop rgb WORDLE_COLORS (none, greyStr)
  match r.1 with
  | some m => if 6400 < m then hueFallback rgb else r.2
  | none => hueFallback rgb

/-- A raster image as consumed by the recognizer: a size and a total
pixel function `pix x y` (PIL's `pixels[x, y]`) returning the RGB
channels, which PIL delivers as naturals in 0..255.  All coordinate
arithmetic below follows the source; Python float arithmetic on
coordinates (ratios 0.7, 0.25..0.45, width fractions) is idealised as
exact rational arithmetic, with `int()` on the non-negative values
rendered as floor division. -/
structure Img where
  width : Nat
  height : Nat
  pix : Nat → Nat → Nat × Nat × Nat

/-- The pixel at `(x, y)` as an RGB triple for `classify_color`. -/
def pixRGB (img : Img) (x y : Nat) : RGB :=
  (((img.pix x y).1 : Int), ((img.pix x y).2.1 : Int), ((img.pix x y).2.2 : Int))

/-- An axis-aligned cell `(x, y, width, height)` as returned by
`find_cell_bounds`. -/
structure Cell where
  x : Nat
  y : Nat
  w : Nat
  h : Nat
deriving Repr, DecidableEq

/-- The right-edge expansion loop of `find_cell_bounds` (src/app.py
lines 253-257): `while right < bound: if distance > 50: break;
right += 1`.  The fuel is the distance from the start to `bound`, so the
loop runs exactly while `right < bound`. -/
def growRight (img : Img) (sy : Nat) (startColor : RGB) :
    Nat → Nat → Nat
  | 0, right => right
  | fuel + 1, right =>
    if color_distance_sq (pixRGB img right sy) startColor > 2500 then right
    else growRight img sy startColor fuel (right + 1)

/-- Source `find_cell_bounds` (src/app.py lines 241-263). -/
def find_cell_bounds (img : Img) (start_x start_y min_size max_size : Nat) :
    Option Cell :=
  let sy := min start_y (img.height - 1)
  let startColor := pixRGB img (min start_x (img.width - 1)) sy
  let bound := min (start_x + max_size) (img.width - 1)
  let right := growRight img sy startColor (bound - start_x) start_x
  let cell_width := right - start_x
  if cell_width < min_size || cell_width > max_size then none
  else some ⟨start_x, start_y, cell_width, cell_width⟩

/-- The x-scan of `find_row_at_y` (src/app.py lines 220-237).  The
scanned position advances by at least 2 per iteration, so the fixed fuel
`width + 1` passed by `find_row_at_y` is enough for the loop to run
until `x < width - min_cell` fails, exactly as the source's `while`.
The source's `if color_type in ("green", "yellow", "grey")` is kept even
though `classify_color` always returns one of the three. -/
def rowLoop (img : Img) (y min_cell max_cell : Nat) :
    Nat → Nat → List Cell → List Cell
  | 0, _, cells => cells
  | fuel + 1, x, cells =>
    if x < img.width - min_cell then
      let ct := classify_color
        (pixRGB img (min x (img.width - 1)) (min y (img.height - 1)))
      if ct = greenStr ∨ ct = yellowStr ∨ ct = greyStr then
        match find_cell_bounds img x y min_cell max_cell with
        | some cell =>
          rowLoop img y min_cell max_cell fuel (cell.x + cell.w + 2)
            (cells ++ [cell])
        | none => rowLoop img y min_cell max_cell fuel (x + 5) cells
      else rowLoop img y min_cell max_cell fuel (x + 5) cells
    else cells

/-- Source `find_row_at_y` (src/app.py lines 211-239): `some` of the cell list
exactly when 5 cells were found. -/
def find_row_at_y (img : Img) (y min_cell max_cell : Nat) :
    Option (List Cell) :=
  let cells := rowLoop img y min_cell max_cell (img.width + 1) 0 []
  if cells.length = 5 then some cells else none

/-- The y-scan of `find_wordle_grid` (src/app.py lines 198-208).  The
float condition `y < height * 0.7` is the exact `10 * y < 7 * height`.
`y` advances by at least 5 per iteration, so fuel `height + 1` is enough
for the loop to run until the condition fails. -/
def gridLoop (img : Img) (min_cell max_cell : Nat) :
    Nat → Nat → List (List Cell) → List (List Cell)
  | 0, _, rows => rows
  | fuel + 1, y, rows =>
    if 10 * y < 7 * img.height then
      match find_row_at_y img y min_cell max_cell with
      | some row =>
        if row.length = 5 then
          gridLoop img min_cell max_cell fuel (y + (row.headD ⟨0, 0, 0, 0⟩).h + 5)
            (rows ++ [row])
        else gridLoop img min_cell max_cell fuel (y + 10) rows
      | none => gridLoop img min_cell max_cell fuel (y + 10) rows
    else rows

/-- Source `find_wordle_grid` (src/app.py lines 180-209). -/
def find_wordle_grid (img : Img) : List (List Cell) :=
  let cell_size_estimate := img.width / 8
  let min_cell := cell_size_estimate / 2
  let max_cell := cell_size_estimate * 2
  gridLoop img min_cell max_cell (img.height + 1) (img.height / 6) []

/-- Clamp of `max(0, min(v, size - 1))` on an integer coordinate
(src/app.py lines 279-280). -/
def clampCoord (v : Int) (size : Nat) : Nat :=
  (max 0 (min v ((size : Int) - 1))).toNat

/-- The sampling offsets `range(-2, 3)` of `extract_row_colors`. -/
def sampleDeltas : List Int := [-2, -1, 0, 1, 2]

/-- Per-cell classification of `extract_row_colors` (src/app.py lines
270-288): average a 5x5 patch around the cell centre (integer floor
division by the 25 samples, as in Python `//`) and classify it. -/
def extract_cell_color (img : Img) (c : Cell) : String :=
  let cx := c.x + c.w / 2
  let cy := c.y + c.h / 2
  let samples := (sampleDeltas.map (fun dx => sampleDeltas.map (fun dy =>
    img.pix (clampCoord ((cx : Int) + dx) img.width)
      (clampCoord ((cy : Int) + dy) img.height)))).flatten
  let avg_r := (samples.map (fun s => s.1)).sum / samples.length
  let avg_g := (samples.map (fun s => s.2.1)).sum / samples.length
  let avg_b := (samples.map (fun s => s.2.2)).sum / samples.length
  classify_color ((avg_r : Int), (avg_g : Int), (avg_b : Int))

/-- Source `extract_row_colors` (src/app.py lines 265-290). -/
def extract_row_colors (img : Img) (row : List Cell) : List String :=
  row.map (extract_cell_color img)

/-- The five relative heights `[0.25, 0.30, 0.35, 0.40, 0.45]` of
`detect_colors_simple`, as percentages. -/
def yRatioNums : List Nat := [25, 30, 35, 40, 45]

/-- One sampled row of `detect_colors_simple` (src/app.py lines
353-369) at relative height `yNum`/100: `cx = int(start_x + cell_size*i
+ cell_size/2)` with `start_x = width/4` and `cell_size = width/10`,
i.e. `⌊width*(6+2i)/20⌋`; samples outside the image are skipped, as in
the source's range guard. -/
def sampleRowAt (img : Img) (yNum : Nat) : List String :=
  let y := img.height * yNum / 100
  (List.range 5).filterMap (fun i =>
    let cx := img.width * (6 + 2 * i) / 20
    if cx < img.width && y < img.height then
      some (classify_color (pixRGB img cx y))
    else none)

/-- Source `detect_colors_simple` (src/app.py lines 345-375): the first sampled
row with 5 classifications of which at least one is green or yellow;
`none` when no relative height qualifies.  The unused `word` parameter
mirrors the source signature. -/
def detect_colors_simple (img : Img) (_word : Word) : Option (List String) :=
  (yRatioNums.map (fun r => sampleRowAt img r)).find?
    (fun colors => colors.length == 5 &&
      colors.any (fun c => c == greenStr || c == yellowStr))

/-- The constraint-building loop of `process_wordle_screenshot`
(src/app.py lines 322-332): split the enumerated (letter, color) pairs
into the green dict, yellow dict and raw grey set. -/
def buildGY : List (Char × String) → Nat →
    List (Nat × Char) × List (Nat × Char) × List Char
  | [], _ => ([], [], [])
  | (letter, color) :: rest, i =>
    let r := buildGY rest (i + 1)
    if color = greenStr then ((i, letter) :: r.1, r.2.1, r.2.2)
    else if color = yellowStr then (r.1, (i, letter) :: r.2.1, r.2.2)
    else (r.1, r.2.1, letter :: r.2.2)

/-- The parsed dict built by `process_wordle_screenshot` from the
guessed word and the five classifications (src/app.py lines 321-343),
including the grey clean-up `grey - yellow.values() - green.values()`. -/
def buildParsed (word : Word) (colors : List String) : Parsed :=
  let r := buildGY (word.zip colors) 0
  let green := r.1
  let yellow := r.2.1
  let greyRaw := r.2.2
  let grey := greyRaw.filter (fun c =>
    c ∉ yellow.map Prod.snd ∧ c ∉ green.map Prod.snd)
  { word := word, green := green, yellow := yellow, grey := grey,
    extra_count := 0 }

/-- Python `str.strip()` on the guessed word. -/
def stripEnds (w : Word) : Word :=
  ((w.dropWhile Char.isWhitespace).reverse.dropWhile Char.isWhitespace).reverse

/-- Source `process_wordle_screenshot` (src/app.py lines 292-343).  The source
`if not colors or len(colors) != 5: return None` is rendered by the
`none` branch together with the length test (an empty list has length
0 ≠ 5). -/
def process_wordle_screenshot (img : Img) (wordRaw : Word) : Option Parsed :=
  let word := stripEnds (wordRaw.map Char.toUpper)
  if word.length ≠ 5 then none
  else
    let rows := find_wordle_grid img
    let colors? := match rows with
      | [] => detect_colors_simple img word
      | _ => some (extract_row_colors img (rows.getLastD []))
    match colors? with
    | none => none
    | some colors =>
      if colors.length ≠ 5 then none
      else some (buildParsed word colors)

/-! ## Spec-side definitions

These definitions restate properties in the words of the specification
and of the claims, to be compared with the embedded source functions
above. -/

/-- The four filter rules of spec §4.2, stated on a word as the claim
words them: green letters at their positions, no grey letter anywhere,
every yellow letter present, no yellow letter at its annotated
position. -/
def claimFilterRules (p : Parsed) (w : Word) : Prop :=
  (∀ pc ∈ p.green, w.get? pc.1 = some pc.2) ∧
  (∀ c ∈ p.grey, c ∉ w) ∧
  (∀ pc ∈ p.yellow, pc.2 ∈ w) ∧
  (∀ pc ∈ p.yellow, w.get? pc.1 ≠ some pc.2)

instance (p : Parsed) (w : Word) : Decidable (claimFilterRules p w) := by
  unfold claimFilterRules
  infer_instance

/-- The constraint invariants of spec §3: grey is disjoint from the
green and yellow letters, and no position is both a green and a yellow
key. -/
def constraintInvariant (p : Parsed) : Bool :=
  p.grey.all (fun c =>
    !(p.green.map Prod.snd).contains c && !(p.yellow.map Prod.snd).contains c) &&
  (p.green.map Prod.fst).all (fun k => !(p.yellow.map Prod.fst).contains k)

/-- The predicate `constraintInvariant` lifted to the optional result of the
screenshot pipeline: a failure (`none`) produces no constraint. -/
def constraintInvariantOpt : Option Parsed → Bool
  | none => true
  | some p => constraintInvariant p

/-- The gain of spec §4.3 step 2 for a letter at a position:
`10.0 × (histogram count for this letter at this position) /
(total candidates)`. -/
def specPositionGain (candidates : List Word) (i : Nat) (ch : Char) : ℚ :=
  10 * ((candidates.filterMap (fun w => w.get? i)).count ch : ℚ) /
    (candidates.length : ℚ)

/-- The claimed score formula with the repeated-letter penalty as the
claim states it: subtract 5 when the letter occurred *anywhere* earlier
in the word. -/
def claimScoreOrig (word : Word) (candidates : List Word) (tested : List Char)
    (locked : List (Nat × Char)) : ℚ :=
  ((enumerate 0 word).map (fun ic =>
    if (lookupPos ic.1 locked).isSome then 0
    else
      (if ic.2 ∈ word.take ic.1 then (-5 : ℚ) else 0) +
      (if ic.2 ∈ tested then 0 else specPositionGain candidates ic.1 ic.2))).sum

/-- The amended score formula: the penalty counts only an earlier
occurrence at a *non-locked* position (the source skips locked positions
before recording the letter as seen). -/
def claimScoreAmended (word : Word) (candidates : List Word)
    (tested : List Char) (locked : List (Nat × Char)) : ℚ :=
  ((enumerate 0 word).map (fun ic =>
    if (lookupPos ic.1 locked).isSome then 0
    else
      (if ∃ j < ic.1, (lookupPos j locked).isNone ∧ word.get? j = some ic.2
        then (-5 : ℚ) else 0) +
      (if ic.2 ∈ tested then 0 else specPositionGain candidates ic.1 ic.2))).sum

/-- The tested-letter set handed to the scorer by
`find_best_suggestions`: grey, then yellow values, then green values. -/
def testedLetters (p : Parsed) : List Char :=
  p.grey ++ p.yellow.map Prod.snd ++ p.green.map Prod.snd

/-- The ranking key used by `find_best_suggestions` for a word, spelled
out: its `score_suggestion` against the candidate histogram of the
filtered list. -/
def rankKey (available : List Word) (p : Parsed) (w : Word) : ℚ :=
  score_suggestion w
    (analyze_position_frequencies (filter_candidates available p) p.green)
    (testedLetters p) p.green

/-- The minimum of the running value `m` and the distances from `rgb`
to the references in the list. -/
def minDistFrom (rgb : RGB) (m : Int) : List (String × RGB) → Int
  | [] => m
  | (_, ref) :: rest => minDistFrom rgb (min m (color_distance_sq rgb ref)) rest

/-- The minimum squared distance from `rgb` to any reference color. -/
def specMinDist (rgb : RGB) : Int :=
  match WORDLE_COLORS with
  | [] => 0
  | (_, r0) :: rest => minDistFrom rgb (color_distance_sq rgb r0) rest

/-- The category of the nearest reference color, ties resolved in favor
of the first-listed reference (and hence the first-listed category). -/
def specNearestCategory (rgb : RGB) : String :=
  ((WORDLE_COLORS.find? (fun pr =>
    color_distance_sq rgb pr.2 = specMinDist rgb)).map Prod.fst).getD greyStr

/-- The fallback grid sampling as the spec words its acceptance rule:
the first sampled row with five classifications of which at least one is
*not grey*. -/
def specFallback (img : Img) : Option (List String) :=
  (yRatioNums.map (fun r => sampleRowAt img r)).find?
    (fun colors => colors.length == 5 && colors.any (fun c => !(c == greyStr)))

/-! ## Helper lemmas -/

theorem lookupPos_mem {k : Nat} {v : Char} :
    ∀ {l : List (Nat × Char)}, lookupPos k l = some v → (k, v) ∈ l := by
  intro l
  induction l with
  | nil => intro h; cases h
  | cons hd tl ih =>
    intro h
    rw [lookupPos] at h
    split at h
    · cases h
      simp_all
    · exact List.mem_cons_of_mem _ (ih h)

theorem lookupPos_of_mem_nodup {k : Nat} {v : Char} :
    ∀ {l : List (Nat × Char)}, (l.map Prod.fst).Nodup → (k, v) ∈ l →
      lookupPos k l = some v := by
  intro l
  induction l with
  | nil => intro _ h; cases h
  | cons hd tl ih =>
    intro hnd h
    rw [List.map_cons, List.nodup_cons] at hnd
    rcases List.mem_cons.1 h with h1 | h1
    · rw [← h1, lookupPos, if_pos rfl]
    · rw [lookupPos]
      have hk : k ≠ hd.1 := by
        intro hkk
        exact hnd.1 (hkk ▸ List.mem_map_of_mem Prod.fst h1)
      rw [if_neg hk]
      exact ih hnd.2 h1

theorem lookupPos_eq_none_iff {k : Nat} :
    ∀ {l : List (Nat × Char)}, lookupPos k l = none ↔ k ∉ l.map Prod.fst := by
  intro l
  induction l with
  | nil => simp [lookupPos]
  | cons hd tl ih =>
    rw [lookupPos]
    split
    · simp_all
    · simp_all [eq_comm]

/-! ## Claims -/

/-- Claim C9 (confirmed): the Candidate Filter is idempotent — filtering
its own output again with the same constraint returns the same list
unchanged. -/
theorem filter_candidates_idempotent (available : List Word) (p : Parsed) :
    filter_candidates (filter_candidates available p) p =
      filter_candidates available p := by
  unfold filter_candidates
  have h1 : (List.insertionSort (· ≤ ·) (available.filter (candOk p))).filter
      (candOk p) = List.insertionSort (· ≤ ·) (available.filter (candOk p)) := by
    apply List.filter_eq_self.mpr
    intro a ha
    exact (List.mem_filter.1 ((List.mem_insertionSort _).1 ha)).2
  rw [h1]
  exact List.Sorted.insertionSort_eq (List.sorted_insertionSort _ _)

/-- Claim C5, counterexample: parsing `st(a)Re` does not lock position 2
(the parenthesized `(a)` occupies position 2, pushing `R` to position
3), and the lowercase `e` is grey, not locked, so the claimed
`locked = {2:'R', 3:'E'}` is false on the code. -/
theorem parse_staRe_claim_false :
    lookupPos 2 (parse_input ['s', 't', '(', 'a', ')', 'R', 'e']).green = none ∧
    lookupPos 3 (parse_input ['s', 't', '(', 'a', ')', 'R', 'e']).green ≠ some 'E' ∧
    (parse_input ['s', 't', '(', 'a', ')', 'R', 'e']).green ≠ [(2, 'R'), (3, 'E')] ∧
    'E' ∈ (parse_input ['s', 't', '(', 'a', ')', 'R', 'e']).grey := by
  decide

/-- Claim C5 (corrected): parsing `st(a)Re` produces the word `STARE`
with green `{3:'R'}` (the parenthesized letter occupies position 2),
yellow `{2:'A'}`, grey `{'S','T','E'}` (letters uppercased; the
lowercase `e` is grey), and no `+` suffix. -/
theorem parse_staRe_value :
    parse_input ['s', 't', '(', 'a', ')', 'R', 'e'] =
      { word := ['S', 'T', 'A', 'R', 'E'], green := [(3, 'R')],
        yellow := [(2, 'A')], grey := ['S', 'T', 'E'], extra_count := 0 } := by
  decide

/-- Claim C4, counterexample: the convention-B encoding `st aRe` of the
guess whose convention-A encoding is `st(a)Re` parses with no yellow
entry and with `A` grey — a lowercase letter preceded by a space is
classified grey, so the two conventions do not produce the same
constraint. -/
theorem parse_convB_differs :
    (parse_input ['s', 't', ' ', 'a', 'R', 'e']).yellow = [] ∧
    'A' ∈ (parse_input ['s', 't', ' ', 'a', 'R', 'e']).grey ∧
    parse_input ['s', 't', ' ', 'a', 'R', 'e'] ≠
      parse_input ['s', 't', '(', 'a', ')', 'R', 'e'] := by
  decide

/-- Claim C8, counterexample: with a stored 4-item list, cursor 3 and
one `+` (requested count 3), the code returns the single remaining item
but stores cursor 6 = 3 + 3, not 3 + 1 — the cursor advances by the
requested count, not by the number of items actually returned. -/
theorem showMore_cursor_claim_false :
    (showMore [['A'], ['B'], ['C'], ['D']] 3 1).1 = [['D']] ∧
    (showMore [['A'], ['B'], ['C'], ['D']] 3 1).2 ≠
      3 + (showMore [['A'], ['B'], ['C'], ['D']] 3 1).1.length := by
  decide

/-- Claim C8 (corrected): a `+` request returns the slice
`cursor..cursor+requested_count` of the stored list (requested count =
3 per `+`), and stores `cursor + requested_count` whenever the slice is
non-empty — even when fewer items than requested were returned; when
the slice is empty the stored cursor is left unchanged. -/
theorem showMore_paginates (s : List Word) (i k j : Nat) :
    (showMore s i k).1 = (s.drop i).take (k * 3) ∧
    (showMore s i k).1.length = min (k * 3) (s.length - i) ∧
    (showMore s i k).1.get? j =
      (if j < k * 3 then s.get? (i + j) else none) ∧
    (showMore s i k).2 = (if s.length ≤ i ∨ k = 0 then i else i + k * 3) := by
  have hbatch : ((s.drop i).take (k * 3)).isEmpty = true ↔
      (s.length ≤ i ∨ k = 0) := by
    rw [List.isEmpty_iff, List.take_eq_nil_iff]
    constructor
    · rintro (h | h)
      · right
        omega
      · left
        rw [List.drop_eq_nil_iff] at h
        exact h
    · rintro (h | h)
      · right
        rw [List.drop_eq_nil_iff]
        exact h
      · left
        omega
  have hform : showMore s i k =
      ((s.drop i).take (k * 3),
        if ((s.drop i).take (k * 3)).isEmpty = true then i
        else i + k * 3) := by
    simp only [showMore]
    split <;> rfl
  rw [hform]
  dsimp only
  refine ⟨rfl, ?_, ?_, ?_⟩
  · simp [List.length_take, List.length_drop]
  · by_cases hj : j < k * 3
    · rw [if_pos hj, List.get?_take hj, List.get?_drop]
    · rw [if_neg hj]
      apply List.get?_eq_none.2
      have h1 := List.length_take (k * 3) (s.drop i)
      omega
  · by_cases hc : s.length ≤ i ∨ k = 0
    · rw [if_pos hc, if_pos (hbatch.2 hc)]
    · have hne : ¬(((s.drop i).take (k * 3)).isEmpty = true) :=
        fun h => hc (hbatch.1 h)
      rw [if_neg hc, if_neg hne]

theorem parseLoop_keys_disjoint :
    ∀ (l : List Char) (pos : Nat) (g y : List (Nat × Char)) (gr w : List Char),
    (∀ k ∈ g.map Prod.fst, k < pos) →
    (∀ k ∈ y.map Prod.fst, k < pos) →
    (∀ k ∈ g.map Prod.fst, k ∉ y.map Prod.fst) →
    (∀ k ∈ (parseLoop l pos g y gr w).1.map Prod.fst, k < pos + l.length) ∧
    (∀ k ∈ (parseLoop l pos g y gr w).2.1.map Prod.fst, k < pos + l.length) ∧
    (∀ k ∈ (parseLoop l pos g y gr w).1.map Prod.fst,
      k ∉ (parseLoop l pos g y gr w).2.1.map Prod.fst) := by
  intro l pos g y gr w
  induction l, pos, g, y, gr, w using parseLoop.induct with
  | case1 pos g y gr w =>
    intro hg hy hd
    rw [parseLoop.eq_1]
    refine ⟨?_, ?_, hd⟩
    · intro k hk
      have := hg k hk
      omega
    · intro k hk
      have := hy k hk
      omega
  | case2 ych rest pos g y gr w ih =>
    intro hg hy hd
    rw [parseLoop.eq_2, if_pos rfl]
    have hy' : ∀ k ∈ (y ++ [(pos, ych.toUpper)]).map Prod.fst, k < pos + 1 := by
      intro k hk
      rw [List.map_append, List.mem_append] at hk
      rcases hk with hk | hk
      · have := hy k hk
        omega
      · simp at hk
        omega
    have hg' : ∀ k ∈ g.map Prod.fst, k < pos + 1 := by
      intro k hk
      have := hg k hk
      omega
    have hd' : ∀ k ∈ g.map Prod.fst, k ∉ (y ++ [(pos, ych.toUpper)]).map Prod.fst := by
      intro k hk
      rw [List.map_append, List.mem_append]
      rintro (hmem | hmem)
      · exact hd k hk hmem
      · simp at hmem
        have := hg k hk
        omega
    have := ih hg' hy' hd'
    refine ⟨?_, ?_, this.2.2⟩
    · intro k hk
      have := this.1 k hk
      simp only [List.length_cons] at *
      omega
    · intro k hk
      have := this.2.1 k hk
      simp only [List.length_cons] at *
      omega
  | case3 ych d rest pos g y gr w hne ih =>
    intro hg hy hd
    rw [parseLoop.eq_2, if_neg hne]
    have := ih hg hy hd
    refine ⟨?_, ?_, this.2.2⟩
    · intro k hk
      have := this.1 k hk
      simp only [List.length_cons] at *
      omega
    · intro k hk
      have := this.2.1 k hk
      simp only [List.length_cons] at *
      omega
  | case4 c rest pos g y gr w hside halpha hupper ih =>
    intro hg hy hd
    rw [parseLoop.eq_3 _ _ _ _ _ _ _ hside, if_pos halpha, if_pos hupper]
    have hg' : ∀ k ∈ (g ++ [(pos, c.toUpper)]).map Prod.fst, k < pos + 1 := by
      intro k hk
      rw [List.map_append, List.mem_append] at hk
      rcases hk with hk | hk
      · have := hg k hk
        omega
      · simp at hk
        omega
    have hy' : ∀ k ∈ y.map Prod.fst, k < pos + 1 := by
      intro k hk
      have := hy k hk
      omega
    have hd' : ∀ k ∈ (g ++ [(pos, c.toUpper)]).map Prod.fst,
        k ∉ y.map Prod.fst := by
      intro k hk
      rw [List.map_append, List.mem_append] at hk
      rcases hk with hk | hk
      · exact hd k hk
      · simp at hk
        intro hmem
        have := hy k hmem
        omega
    have := ih hg' hy' hd'
    refine ⟨?_, ?_, this.2.2⟩
    · intro k hk
      have := this.1 k hk
      simp only [List.length_cons] at *
      omega
    · intro k hk
      have := this.2.1 k hk
      simp only [List.length_cons] at *
      omega
  | case5 c rest pos g y gr w hside halpha hupper ih =>
    intro hg hy hd
    rw [parseLoop.eq_3 _ _ _ _ _ _ _ hside, if_pos halpha, if_neg hupper]
    have hg' : ∀ k ∈ g.map Prod.fst, k < pos + 1 := by
      intro k hk
      have := hg k hk
      omega
    have hy' : ∀ k ∈ y.map Prod.fst, k < pos + 1 := by
      intro k hk
      have := hy k hk
      omega
    have := ih hg' hy' hd
    refine ⟨?_, ?_, this.2.2⟩
    · intro k hk
      have := this.1 k hk
      simp only [List.length_cons] at *
      omega
    · intro k hk
      have := this.2.1 k hk
      simp only [List.length_cons] at *
      omega
  | case6 c rest pos g y gr w hside halpha ih =>
    intro hg hy hd
    rw [parseLoop.eq_3 _ _ _ _ _ _ _ hside, if_neg halpha]
    have := ih hg hy hd
    refine ⟨?_, ?_, this.2.2⟩
    · intro k hk
      have := this.1 k hk
      simp only [List.length_cons] at *
      omega
    · intro k hk
      have := this.2.1 k hk
      simp only [List.length_cons] at *
      omega

theorem buildGY_keys : ∀ (l : List (Char × String)) (i : Nat),
    (∀ k ∈ (buildGY l i).1.map Prod.fst, i ≤ k) ∧
    (∀ k ∈ (buildGY l i).2.1.map Prod.fst, i ≤ k) ∧
    (∀ k ∈ (buildGY l i).1.map Prod.fst,
      k ∉ (buildGY l i).2.1.map Prod.fst) := by
  intro l
  induction l with
  | nil =>
    intro i
    simp [buildGY]
  | cons hd tl ih =>
    intro i
    obtain ⟨ih1, ih2, ih3⟩ := ih (i + 1)
    obtain ⟨letter, color⟩ := hd
    simp only [buildGY]
    split_ifs with h1 h2
    · refine ⟨?_, ?_, ?_⟩
      · intro k hk
        simp only [List.map_cons, List.mem_cons] at hk
        rcases hk with hk | hk
        · omega
        · have := ih1 k hk
          omega
      · intro k hk
        have := ih2 k hk
        omega
      · intro k hk
        simp only [List.map_cons, List.mem_cons] at hk
        rcases hk with hk | hk
        · intro hmem
          have := ih2 k hmem
          omega
        · exact ih3 k hk
    · refine ⟨?_, ?_, ?_⟩
      · intro k hk
        have := ih1 k hk
        omega
      · intro k hk
        simp only [List.map_cons, List.mem_cons] at hk
        rcases hk with hk | hk
        · omega
        · have := ih2 k hk
          omega
      · intro k hk
        simp only [List.map_cons, List.mem_cons]
        rintro (hmem | hmem)
        · have := ih1 k hk
          omega
        · exact ih3 k hk hmem
    · refine ⟨?_, ?_, ?_⟩
      · intro k hk
        have := ih1 k hk
        omega
      · intro k hk
        have := ih2 k hk
        omega
      · exact ih3

theorem buildParsed_invariant (word : Word) (colors : List String) :
    constraintInvariant (buildParsed word colors) = true := by
  obtain ⟨h1, h2, h3⟩ := buildGY_keys (word.zip colors) 0
  simp only [buildParsed, constraintInvariant, Bool.and_eq_true,
    List.all_eq_true]
  constructor
  · intro c hc
    have hmem := List.of_mem_filter hc
    simp only [decide_eq_true_eq] at hmem
    simp [hmem.1, hmem.2]
  · intro k hk
    simp [h3 k hk]

/-- Claim C3 (confirmed): every constraint built by the text parser or
by the screenshot pipeline (when it succeeds) keeps grey disjoint from
the green and yellow letters, and no position is both a green key and a
yellow key. -/
theorem constraints_satisfy_invariants :
    (∀ raw : List Char, constraintInvariant (parse_input raw) = true) ∧
    (∀ (img : Img) (wordRaw : Word),
      constraintInvariantOpt (process_wordle_screenshot img wordRaw) = true) := by
  constructor
  · intro raw
    obtain ⟨h1, h2, h3⟩ := parseLoop_keys_disjoint (rstripPlus raw) 0 [] [] [] []
      (by simp) (by simp) (by simp)
    simp only [parse_input, constraintInvariant, Bool.and_eq_true,
      List.all_eq_true]
    constructor
    · intro c hc
      have hmem := List.of_mem_filter hc
      simp only [decide_eq_true_eq] at hmem
      simp [hmem.1, hmem.2]
    · intro k hk
      simp [h3 k hk]
  · intro img wordRaw
    simp only [process_wordle_screenshot]
    split
    · rfl
    · split
      · rfl
      · split
        · rfl
        · exact buildParsed_invariant _ _

theorem minDistFrom_le (rgb : RGB) :
    ∀ (l : List (String × RGB)) (m : Int), minDistFrom rgb m l ≤ m := by
  intro l
  induction l with
  | nil => intro m; simp [minDistFrom]
  | cons hd tl ih =>
    intro m
    obtain ⟨name, ref⟩ := hd
    calc minDistFrom rgb m ((name, ref) :: tl)
        = minDistFrom rgb (min m (color_distance_sq rgb ref)) tl := rfl
      _ ≤ min m (color_distance_sq rgb ref) := ih _
      _ ≤ m := min_le_left _ _

theorem minDistFrom_lt_exists (rgb : RGB) :
    ∀ (l : List (String × RGB)) (m : Int), minDistFrom rgb m l < m →
      ∃ p ∈ l, color_distance_sq rgb p.2 = minDistFrom rgb m l := by
  intro l
  induction l with
  | nil =>
    intro m h
    simp [minDistFrom] at h
  | cons hd tl ih =>
    intro m h
    obtain ⟨name, ref⟩ := hd
    have hstep : minDistFrom rgb m ((name, ref) :: tl) =
        minDistFrom rgb (min m (color_distance_sq rgb ref)) tl := rfl
    by_cases hlt : minDistFrom rgb (min m (color_distance_sq rgb ref)) tl <
        min m (color_distance_sq rgb ref)
    · obtain ⟨p, hp, hpd⟩ := ih _ hlt
      exact ⟨p, List.mem_cons_of_mem _ hp, by rw [hstep]; exact hpd⟩
    · have heq : minDistFrom rgb (min m (color_distance_sq rgb ref)) tl =
          min m (color_distance_sq rgb ref) :=
        le_antisymm (minDistFrom_le _ _ _) (not_lt.1 hlt)
      refine ⟨(name, ref), List.mem_cons_self _ _, ?_⟩
      rw [hstep, heq]
      have hlt2 : min m (color_distance_sq rgb ref) < m := by
        rw [hstep, heq] at h
        exact h
      have hdm : color_distance_sq rgb ref < m := by
        by_contra hge
        push_neg at hge
        rw [min_eq_left hge] at hlt2
        exact lt_irrefl _ hlt2
      rw [min_eq_right (le_of_lt hdm)]

theorem option_map_getD_of_isSome {α β : Type} (o : Option α) (f : α → β)
    (a b : β) (h : o.isSome) : (o.map f).getD a = (o.map f).getD b := by
  cases o with
  | none => cases h
  | some x => rfl

theorem classifyLoop_char (rgb : RGB) :
    ∀ (l : List (String × RGB)) (m : Int) (b : String),
      classifyLoop rgb l (some m, b) =
        (some (minDistFrom rgb m l),
         if minDistFrom rgb m l < m then
           ((l.find? (fun p => color_distance_sq rgb p.2 =
             minDistFrom rgb m l)).map Prod.fst).getD b
         else b) := by
  intro l
  induction l with
  | nil =>
    intro m b
    simp [classifyLoop, minDistFrom]
  | cons hd tl ih =>
    intro m b
    obtain ⟨name, ref⟩ := hd
    have hM : minDistFrom rgb m ((name, ref) :: tl) =
        minDistFrom rgb (min m (color_distance_sq rgb ref)) tl := rfl
    by_cases hd1 : color_distance_sq rgb ref < m
    · have hmin : min m (color_distance_sq rgb ref) =
          color_distance_sq rgb ref := min_eq_right (le_of_lt hd1)
      have hloop : classifyLoop rgb ((name, ref) :: tl) (some m, b) =
          classifyLoop rgb tl (some (color_distance_sq rgb ref), name) := by
        simp [classifyLoop, hd1]
      rw [hloop, ih, hM, hmin]
      set d := color_distance_sq rgb ref with hdd
      set M := minDistFrom rgb d tl with hMM
      have hMd : M ≤ d := minDistFrom_le _ _ _
      by_cases hlt : M < d
      · have hMm : M < m := lt_trans hlt hd1
        rw [if_pos hlt, if_pos hMm]
        have hne : ¬(color_distance_sq rgb (name, ref).2 = M) := by
          simp only []
          omega
        rw [List.find?_cons_of_neg _ (by simpa using hne)]
        obtain ⟨p, hp, hpd⟩ := minDistFrom_lt_exists rgb tl d hlt
        have hsome : (tl.find? (fun p => color_distance_sq rgb p.2 = M)).isSome := by
          rw [List.find?_isSome]
          exact ⟨p, hp, by simpa using hpd⟩
        exact congrArg _ (option_map_getD_of_isSome _ _ _ _ hsome)
      · have heq : M = d := le_antisymm hMd (not_lt.1 hlt)
        have hMm : M < m := heq ▸ hd1
        rw [if_neg hlt, if_pos hMm]
        have hpos : color_distance_sq rgb (name, ref).2 = M := by
          simpa using heq.symm
        rw [List.find?_cons_of_pos _ (by simpa using hpos)]
        rfl
    · have hmin : min m (color_distance_sq rgb ref) = m :=
        min_eq_left (not_lt.1 hd1)
      have hloop : classifyLoop rgb ((name, ref) :: tl) (some m, b) =
          classifyLoop rgb tl (some m, b) := by
        simp [classifyLoop, hd1]
      rw [hloop, ih, hM, hmin]
      set M := minDistFrom rgb m tl with hMM
      have hMle : M ≤ m := minDistFrom_le _ _ _
      by_cases hlt : M < m
      · rw [if_pos hlt, if_pos hlt]
        have hne : ¬(color_distance_sq rgb (name, ref).2 = M) := by
          simp only []
          have := not_lt.1 hd1
          omega
        rw [List.find?_cons_of_neg _ (by simpa using hne)]
      · rw [if_neg hlt, if_neg hlt]

/-- Claim C6 (confirmed): `classify_color` returns the category of the
reference color at minimum (squared) Euclidean distance, ties resolved
in favor of the first-listed reference — hence the first-listed
category — and when that minimum exceeds the threshold (80, i.e. 6400
squared) it instead applies the hue heuristic: green when the green
channel strictly dominates both others and exceeds 100, yellow when red
and green exceed 150 while blue is under 150, grey otherwise. -/
theorem classify_color_picks_nearest (rgb : RGB) :
    classify_color rgb =
      (if 6400 < specMinDist rgb then hueFallback rgb
       else specNearestCategory rgb) := by
  have hstart : classifyLoop rgb WORDLE_COLORS (none, greyStr) =
      classifyLoop rgb WORDLE_COLORS.tail
        (some (color_distance_sq rgb ((83 : Int), (141 : Int), (78 : Int))),
          greenStr) := rfl
  have hMspec : specMinDist rgb =
      minDistFrom rgb
        (color_distance_sq rgb ((83 : Int), (141 : Int), (78 : Int)))
        WORDLE_COLORS.tail := rfl
  have hchar := classifyLoop_char rgb WORDLE_COLORS.tail
    (color_distance_sq rgb ((83 : Int), (141 : Int), (78 : Int))) greenStr
  unfold classify_color
  rw [hstart, hchar]
  dsimp only
  rw [hMspec]
  by_cases h64 : 6400 <
      minDistFrom rgb
        (color_distance_sq rgb ((83 : Int), (141 : Int), (78 : Int)))
        WORDLE_COLORS.tail
  · rw [if_pos h64, if_pos h64]
  · rw [if_neg h64, if_neg h64]
    rw [specNearestCategory, hMspec]
    have hle : minDistFrom rgb
        (color_distance_sq rgb ((83 : Int), (141 : Int), (78 : Int)))
        WORDLE_COLORS.tail ≤
        color_distance_sq rgb ((83 : Int), (141 : Int), (78 : Int)) :=
      minDistFrom_le _ _ _
    by_cases hlt : minDistFrom rgb
        (color_distance_sq rgb ((83 : Int), (141 : Int), (78 : Int)))
        WORDLE_COLORS.tail <
        color_distance_sq rgb ((83 : Int), (141 : Int), (78 : Int))
    · rw [if_pos hlt]
      have hne : ¬(color_distance_sq rgb
          ((greenStr, ((83 : Int), (141 : Int), (78 : Int))) : String × RGB).2 =
          minDistFrom rgb
            (color_distance_sq rgb ((83 : Int), (141 : Int), (78 : Int)))
            WORDLE_COLORS.tail) := by
        simp only []
        omega
      rw [show WORDLE_COLORS =
        (greenStr, ((83 : Int), (141 : Int), (78 : Int))) :: WORDLE_COLORS.tail
        from rfl, List.find?_cons_of_neg _ (by simpa using hne)]
      obtain ⟨p, hp, hpd⟩ := minDistFrom_lt_exists rgb WORDLE_COLORS.tail _ hlt
      have hsome : (WORDLE_COLORS.tail.find? (fun p =>
          color_distance_sq rgb p.2 =
          minDistFrom rgb
            (color_distance_sq rgb ((83 : Int), (141 : Int), (78 : Int)))
            WORDLE_COLORS.tail)).isSome := by
        rw [List.find?_isSome]
        exact ⟨p, hp, by simpa using hpd⟩
      exact option_map_getD_of_isSome _ _ _ _ hsome
    · have heq : minDistFrom rgb
          (color_distance_sq rgb ((83 : Int), (141 : Int), (78 : Int)))
          WORDLE_COLORS.tail =
          color_distance_sq rgb ((83 : Int), (141 : Int), (78 : Int)) :=
        le_antisymm hle (not_lt.1 hlt)
      rw [if_neg hlt]
      have hpos : color_distance_sq rgb
          ((greenStr, ((83 : Int), (141 : Int), (78 : Int))) : String × RGB).2 =
          minDistFrom rgb
            (color_distance_sq rgb ((83 : Int), (141 : Int), (78 : Int)))
            WORDLE_COLORS.tail := by
        simpa using heq.symm
      rw [show WORDLE_COLORS =
        (greenStr, ((83 : Int), (141 : Int), (78 : Int))) :: WORDLE_COLORS.tail
        from rfl, List.find?_cons_of_pos _ (by simpa using hpos)]
      rfl

theorem hueFallback_total (rgb : RGB) :
    hueFallback rgb = greenStr ∨ hueFallback rgb = yellowStr ∨
      hueFallback rgb = greyStr := by
  unfold hueFallback
  split_ifs <;> tauto

theorem classifyLoop_snd_cases (rgb : RGB) :
    ∀ (l : List (String × RGB)) (acc : Option Int × String),
      (acc.2 = greenStr ∨ acc.2 = yellowStr ∨ acc.2 = greyStr) →
      (∀ p ∈ l, p.1 = greenStr ∨ p.1 = yellowStr ∨ p.1 = greyStr) →
      ((classifyLoop rgb l acc).2 = greenStr ∨
        (classifyLoop rgb l acc).2 = yellowStr ∨
        (classifyLoop rgb l acc).2 = greyStr) := by
  intro l
  induction l with
  | nil =>
    intro acc hacc _
    obtain ⟨minD, best⟩ := acc
    simpa [classifyLoop] using hacc
  | cons hd tl ih =>
    intro acc hacc hl
    obtain ⟨name, ref⟩ := hd
    obtain ⟨minD, best⟩ := acc
    have hname := hl (name, ref) (List.mem_cons_self _ _)
    have htl : ∀ p ∈ tl, p.1 = greenStr ∨ p.1 = yellowStr ∨ p.1 = greyStr :=
      fun p hp => hl p (List.mem_cons_of_mem _ hp)
    cases minD with
    | none => exact ih (some (color_distance_sq rgb ref), name) hname htl
    | some m =>
      by_cases hlt : color_distance_sq rgb ref < m
      · have : classifyLoop rgb ((name, ref) :: tl) (some m, best) =
            classifyLoop rgb tl (some (color_distance_sq rgb ref), name) := by
          simp [classifyLoop, hlt]
        rw [this]
        exact ih _ hname htl
      · have : classifyLoop rgb ((name, ref) :: tl) (some m, best) =
            classifyLoop rgb tl (some m, best) := by
          simp [classifyLoop, hlt]
        rw [this]
        exact ih _ hacc htl

theorem classify_color_cases (rgb : RGB) :
    classify_color rgb = greenStr ∨ classify_color rgb = yellowStr ∨
      classify_color rgb = greyStr := by
  have hsnd := classifyLoop_snd_cases rgb WORDLE_COLORS (none, greyStr)
    (by right; right; rfl) (by decide)
  unfold classify_color
  dsimp only
  cases hfst : (classifyLoop rgb WORDLE_COLORS (none, greyStr)).1 with
  | none =>
    exact hueFallback_total rgb
  | some m =>
    dsimp only
    by_cases h64 : 6400 < m
    · rw [if_pos h64]
      exact hueFallback_total rgb
    · rw [if_neg h64]
      exact hsnd

/-- Claim C10 (confirmed): `classify_color` is total — a Lean function
defined for every integer RGB triple — and always returns one of the
three strings green, yellow, grey; no other value is reachable, however
far the input is from every reference color. -/
theorem classify_color_total (rgb : RGB) :
    classify_color rgb = greenStr ∨ classify_color rgb = yellowStr ∨
      classify_color rgb = greyStr :=
  classify_color_cases rgb

theorem greenPatternOk_iff {green : List (Nat × Char)} {w : Word}
    (hw5 : w.length = 5) (hnl : '\n' ∉ w)
    (hk : ∀ pc ∈ green, pc.1 < 5)
    (hnd : (green.map Prod.fst).Nodup) :
    greenPatternOk green w = true ↔ ∀ pc ∈ green, w.get? pc.1 = some pc.2 := by
  unfold greenPatternOk
  rw [Bool.and_eq_true, List.all_eq_true]
  constructor
  · rintro ⟨-, hall⟩ pc hpc
    have hidx := hk pc hpc
    have hlook : lookupPos pc.1 green = some pc.2 :=
      lookupPos_of_mem_nodup hnd hpc
    have hel := hall pc.1 (List.mem_range.2 hidx)
    rw [hlook] at hel
    simpa using hel
  · intro hgreen
    refine ⟨by simpa using hw5, ?_⟩
    intro i hi
    cases hl : lookupPos i green with
    | some c =>
      have hmem := lookupPos_mem hl
      have hval := hgreen (i, c) hmem
      dsimp only
      rw [beq_iff_eq]
      exact hval
    | none =>
      dsimp only
      rw [Bool.not_eq_true', beq_eq_false_iff_ne]
      cases hg : w.get? i with
      | none => simp
      | some ch =>
        have hchmem : ch ∈ w := List.get?_mem hg
        have hne : ch ≠ '\n' := fun hh => hnl (hh ▸ hchmem)
        simp [hne]

theorem candOk_iff {p : Parsed} {w : Word}
    (hw5 : w.length = 5) (hnl : '\n' ∉ w)
    (hk : ∀ pc ∈ p.green, pc.1 < 5)
    (hnd : (p.green.map Prod.fst).Nodup) :
    candOk p w = true ↔ claimFilterRules p w := by
  unfold candOk claimFilterRules
  simp only [Bool.and_eq_true, List.all_eq_true, Bool.not_eq_true',
    List.any_eq_false]
  rw [greenPatternOk_iff hw5 hnl hk hnd]
  constructor
  · rintro ⟨⟨⟨hg, hgrey⟩, hyc⟩, hyp⟩
    refine ⟨hg, ?_, ?_, ?_⟩
    · intro c hc
      have := hgrey c hc
      simpa using this
    · intro pc hpc
      have := hyc pc.2 (List.mem_map_of_mem Prod.snd hpc)
      simpa using this
    · intro pc hpc
      have := hyp pc hpc
      simpa using this
  · rintro ⟨hg, hgrey, hyc, hyp⟩
    refine ⟨⟨⟨hg, ?_⟩, ?_⟩, ?_⟩
    · intro c hc
      simpa using hgrey c hc
    · intro c hc
      obtain ⟨pc, hpc, rfl⟩ := List.mem_map.1 hc
      simpa using hyc pc hpc
    · intro pc hpc
      simpa using hyp pc hpc

/-- Claim C1 (confirmed): a word of `available` is returned by
`filter_candidates` iff it satisfies the four filter rules — green
letters at their positions, no grey letter, all yellow letters present,
no yellow letter at its annotated position — and the returned list is
sorted ascending.  Hypotheses render the data model: `available` holds
5-letter words (no newline, as `corpus − archive` always does), and the
green dict keys are positions 0–4 without repetition. -/
theorem filter_candidates_spec (available : List Word) (p : Parsed) (w : Word)
    (h5 : ∀ v ∈ available, v.length = 5 ∧ '\n' ∉ v)
    (hk : ∀ pc ∈ p.green, pc.1 < 5)
    (hnd : (p.green.map Prod.fst).Nodup) :
    (w ∈ filter_candidates available p ↔
      w ∈ available ∧ claimFilterRules p w) ∧
    (filter_candidates available p).Sorted (· ≤ ·) := by
  constructor
  · rw [filter_candidates, List.mem_insertionSort, List.mem_filter]
    constructor
    · rintro ⟨hmem, hok⟩
      exact ⟨hmem, (candOk_iff (h5 w hmem).1 (h5 w hmem).2 hk hnd).1 hok⟩
    · rintro ⟨hmem, hrules⟩
      exact ⟨hmem, (candOk_iff (h5 w hmem).1 (h5 w hmem).2 hk hnd).2 hrules⟩
  · exact List.sorted_insertionSort _ _

/-- A concrete corpus and the parsed `crANE` constraint, used as
witness inputs. -/
def c1Avail : List Word :=
  [['C', 'R', 'A', 'N', 'E'], ['C', 'R', 'A', 'T', 'E'],
   ['G', 'R', 'A', 'P', 'E'], ['T', 'R', 'A', 'C', 'E']]

/-- The empty constraint (no feedback yet). -/
def emptyParsed : Parsed :=
  { word := [], green := [], yellow := [], grey := [], extra_count := 0 }

theorem filter_candidates_spec_witness :
    ['C', 'R', 'A', 'N', 'E'] ∈ filter_candidates c1Avail emptyParsed :=
  (filter_candidates_spec c1Avail emptyParsed ['C', 'R', 'A', 'N', 'E']
    (by decide) (by decide) (by decide)).1.mpr ⟨by decide, by decide⟩

theorem ne_paren_of_isAlpha {c : Char} (h : c.isAlpha = true) : c ≠ '(' := by
  intro hc
  subst hc
  exact absurd h (by decide)

theorem parseLoop_filter_isAlpha :
    ∀ (l : List Char) (pos : Nat) (g y : List (Nat × Char)) (gr w : List Char),
      '(' ∉ l →
      parseLoop l pos g y gr w = parseLoop (l.filter Char.isAlpha) pos g y gr w := by
  intro l pos g y gr w
  induction l, pos, g, y, gr, w using parseLoop.induct with
  | case1 pos g y gr w =>
    intro _
    rfl
  | case2 ych rest pos g y gr w ih =>
    intro hmem
    exact absurd (List.mem_cons_self _ _) hmem
  | case3 ych d rest pos g y gr w hne ih =>
    intro hmem
    exact absurd (List.mem_cons_self _ _) hmem
  | case4 c rest pos g y gr w hside halpha hupper ih =>
    intro hmem
    have hrest : '(' ∉ rest := fun hr => hmem (List.mem_cons_of_mem _ hr)
    have hcne : c ≠ '(' := ne_paren_of_isAlpha halpha
    rw [parseLoop.eq_3 _ _ _ _ _ _ _ hside, if_pos halpha, if_pos hupper,
      ih hrest, List.filter_cons_of_pos halpha,
      parseLoop.eq_3 _ _ _ _ _ _ _ (fun _ _ _ hc _ => absurd hc hcne),
      if_pos halpha, if_pos hupper]
  | case5 c rest pos g y gr w hside halpha hupper ih =>
    intro hmem
    have hrest : '(' ∉ rest := fun hr => hmem (List.mem_cons_of_mem _ hr)
    have hcne : c ≠ '(' := ne_paren_of_isAlpha halpha
    rw [parseLoop.eq_3 _ _ _ _ _ _ _ hside, if_pos halpha, if_neg hupper,
      ih hrest, List.filter_cons_of_pos halpha,
      parseLoop.eq_3 _ _ _ _ _ _ _ (fun _ _ _ hc _ => absurd hc hcne),
      if_pos halpha, if_neg hupper]
  | case6 c rest pos g y gr w hside halpha ih =>
    intro hmem
    have hrest : '(' ∉ rest := fun hr => hmem (List.mem_cons_of_mem _ hr)
    rw [parseLoop.eq_3 _ _ _ _ _ _ _ hside, if_neg halpha, ih hrest,
      List.filter_cons_of_neg (by simpa using halpha)]

theorem parseLoop_yellow_no_paren :
    ∀ (l : List Char) (pos : Nat) (g y : List (Nat × Char)) (gr w : List Char),
      '(' ∉ l → (parseLoop l pos g y gr w).2.1 = y := by
  intro l pos g y gr w
  induction l, pos, g, y, gr, w using parseLoop.induct with
  | case1 pos g y gr w =>
    intro _
    rfl
  | case2 ych rest pos g y gr w ih =>
    intro hmem
    exact absurd (List.mem_cons_self _ _) hmem
  | case3 ych d rest pos g y gr w hne ih =>
    intro hmem
    exact absurd (List.mem_cons_self _ _) hmem
  | case4 c rest pos g y gr w hside halpha hupper ih =>
    intro hmem
    have hrest : '(' ∉ rest := fun hr => hmem (List.mem_cons_of_mem _ hr)
    rw [parseLoop.eq_3 _ _ _ _ _ _ _ hside, if_pos halpha, if_pos hupper]
    exact ih hrest
  | case5 c rest pos g y gr w hside halpha hupper ih =>
    intro hmem
    have hrest : '(' ∉ rest := fun hr => hmem (List.mem_cons_of_mem _ hr)
    rw [parseLoop.eq_3 _ _ _ _ _ _ _ hside, if_pos halpha, if_neg hupper]
    exact ih hrest
  | case6 c rest pos g y gr w hside halpha ih =>
    intro hmem
    have hrest : '(' ∉ rest := fun hr => hmem (List.mem_cons_of_mem _ hr)
    rw [parseLoop.eq_3 _ _ _ _ _ _ _ hside, if_neg halpha]
    exact ih hrest

theorem mem_rstripPlus {c : Char} {s : List Char} (h : c ∈ rstripPlus s) :
    c ∈ s := by
  unfold rstripPlus at h
  rw [List.mem_reverse] at h
  have := (List.dropWhile_sublist _).subset h
  rwa [List.mem_reverse] at this

theorem filter_isAlpha_rstripPlus (t : List Char) :
    (rstripPlus t).filter Char.isAlpha = t.filter Char.isAlpha := by
  have hsplit : t.reverse =
      t.reverse.takeWhile (fun c => c = '+') ++
      t.reverse.dropWhile (fun c => c = '+') :=
    (List.takeWhile_append_dropWhile _ _).symm
  have htake : (t.reverse.takeWhile (fun c => c = '+')).filter Char.isAlpha
      = [] := by
    rw [List.filter_eq_nil_iff]
    intro a ha
    have := List.mem_takeWhile_imp ha
    simp only [decide_eq_true_eq] at this
    subst this
    decide
  have ht : t = rstripPlus t ++
      (t.reverse.takeWhile (fun c => c = '+')).reverse := by
    unfold rstripPlus
    conv_lhs => rw [← List.reverse_reverse t, hsplit]
    rw [List.reverse_append]
  conv_rhs => rw [ht]
  rw [List.filter_append, List.filter_reverse, htake]
  simp

/-- Claim C4 (corrected): the parser does not implement convention B —
a space is skipped without effect, so a lowercase letter preceded by a
space is classified grey, not yellow.  For any input without a `(`
(i.e. any convention-B string), parsing is unchanged by deleting the
spaces, and the yellow map is empty; convention B therefore coincides
with convention A only when the guess has no yellow tiles. -/
theorem parse_input_space_is_grey (s : List Char) (h : '(' ∉ s) :
    (parse_input s).word = (parse_input (s.filter (fun c => c ≠ ' '))).word ∧
    (parse_input s).green = (parse_input (s.filter (fun c => c ≠ ' '))).green ∧
    (parse_input s).grey = (parse_input (s.filter (fun c => c ≠ ' '))).grey ∧
    (parse_input s).yellow = [] ∧
    (parse_input (s.filter (fun c => c ≠ ' '))).yellow = [] := by
  have hs1 : '(' ∉ rstripPlus s := fun hm => h (mem_rstripPlus hm)
  have hs2 : '(' ∉ rstripPlus (s.filter (fun c => c ≠ ' ')) := by
    intro hm
    exact h (List.mem_of_mem_filter (mem_rstripPlus hm))
  have hfa : (s.filter (fun c => c ≠ ' ')).filter Char.isAlpha =
      s.filter Char.isAlpha := by
    rw [List.filter_filter]
    congr 1
    funext c
    by_cases hsp : c = ' '
    · subst hsp
      decide
    · simp [hsp]
  have hr : parseLoop (rstripPlus s) 0 [] [] [] [] =
      parseLoop (rstripPlus (s.filter (fun c => c ≠ ' '))) 0 [] [] [] [] := by
    rw [parseLoop_filter_isAlpha _ _ _ _ _ _ hs1,
      parseLoop_filter_isAlpha _ _ _ _ _ _ hs2,
      filter_isAlpha_rstripPlus, filter_isAlpha_rstripPlus, hfa]
  have hy1 : (parseLoop (rstripPlus s) 0 [] [] [] []).2.1 = [] :=
    parseLoop_yellow_no_paren _ _ _ _ _ _ hs1
  have hy2 : (parseLoop (rstripPlus (s.filter (fun c => c ≠ ' ')))
      0 [] [] [] []).2.1 = [] :=
    parseLoop_yellow_no_paren _ _ _ _ _ _ hs2
  refine ⟨?_, ?_, ?_, ?_, ?_⟩ <;>
    simp only [parse_input, hr, hy1, hy2]

theorem parse_input_space_is_grey_witness :
    (parse_input ['s', 't', ' ', 'a', 'R', 'e']).yellow = [] ∧
    (parse_input ['s', 't', ' ', 'a', 'R', 'e']).grey =
      (parse_input (['s', 't', ' ', 'a', 'R', 'e'].filter
        (fun c => c ≠ ' '))).grey :=
  ⟨(parse_input_space_is_grey _ (by decide)).2.2.2.1,
   (parse_input_space_is_grey _ (by decide)).2.2.1⟩

/-- Claim C2, counterexample: with lone candidate `AABCD` and the
constraint locking position 0 to `A` (tested set `{A}`), the code scores
the candidate 30 — position 0 is skipped *before* the letter is recorded
as seen, so the second `A` incurs no repeat penalty — while the claimed
formula (penalty when the letter occurred anywhere earlier in the word)
gives 25. -/
theorem score_penalty_claim_false :
    score_suggestion ['A', 'A', 'B', 'C', 'D']
      (analyze_position_frequencies [['A', 'A', 'B', 'C', 'D']] [(0, 'A')])
      ['A'] [(0, 'A')] ≠
    claimScoreOrig ['A', 'A', 'B', 'C', 'D'] [['A', 'A', 'B', 'C', 'D']]
      ['A'] [(0, 'A')] := by
  have h1 : score_suggestion ['A', 'A', 'B', 'C', 'D']
      (analyze_position_frequencies [['A', 'A', 'B', 'C', 'D']] [(0, 'A')])
      ['A'] [(0, 'A')] = 30 := by
    simp +decide only [score_suggestion, scoreLoop,
      analyze_position_frequencies, enumerate, lookupPos, List.filterMap]
    norm_num
  have h2 : claimScoreOrig ['A', 'A', 'B', 'C', 'D'] [['A', 'A', 'B', 'C', 'D']]
      ['A'] [(0, 'A')] = 25 := by
    simp +decide only [claimScoreOrig, specPositionGain, enumerate, lookupPos,
      List.filterMap, List.map, List.sum]
    norm_num
  rw [h1, h2]
  norm_num

theorem orderedInsert_pairwise_stable (sc : Word → ℚ) (a : Word) :
    ∀ (t : List Word),
      t.Pairwise (fun x z => sc z < sc x ∨ (sc x = sc z ∧ x ≤ z)) →
      (∀ b ∈ t, a ≤ b) →
      (List.orderedInsert (fun x z => sc z ≤ sc x) a t).Pairwise
        (fun x z => sc z < sc x ∨ (sc x = sc z ∧ x ≤ z)) := by
  intro t
  induction t with
  | nil =>
    intro _ _
    simp [List.orderedInsert]
  | cons b t' ih =>
    intro hp ha
    rw [List.orderedInsert]
    by_cases hr : sc b ≤ sc a
    · rw [if_pos hr]
      rw [List.pairwise_cons]
      refine ⟨?_, hp⟩
      intro z hz
      rcases List.mem_cons.1 hz with rfl | hz'
      · rcases lt_or_eq_of_le hr with h | h
        · left
          exact h
        · right
          exact ⟨h.symm, ha z (List.mem_cons_self _ _)⟩
      · have hbz := (List.pairwise_cons.1 hp).1 z hz'
        have hscz : sc z ≤ sc b := by
          rcases hbz with h | h
          · exact le_of_lt h
          · exact le_of_eq h.1.symm
        rcases lt_or_eq_of_le (le_trans hscz hr) with h | h
        · left
          exact h
        · right
          exact ⟨h.symm, ha z (List.mem_cons_of_mem _ hz')⟩
    · rw [if_neg hr]
      rw [List.pairwise_cons]
      constructor
      · intro z hz
        rw [List.mem_orderedInsert] at hz
        rcases hz with rfl | hz'
        · left
          exact lt_of_not_le hr
        · exact (List.pairwise_cons.1 hp).1 z hz'
      · exact ih (List.pairwise_cons.1 hp).2
          (fun b' hb' => ha b' (List.mem_cons_of_mem _ hb'))

theorem insertionSort_score_stable (sc : Word → ℚ) :
    ∀ (l : List Word), l.Sorted (· ≤ ·) →
      (List.insertionSort (fun x z => sc z ≤ sc x) l).Pairwise
        (fun x z => sc z < sc x ∨ (sc x = sc z ∧ x ≤ z)) := by
  intro l
  induction l with
  | nil =>
    intro _
    simp
  | cons a l' ih =>
    intro hs
    rw [List.insertionSort]
    have hs' := (List.sorted_cons.1 hs)
    apply orderedInsert_pairwise_stable
    · exact ih hs'.2
    · intro b hb
      exact hs'.1 b ((List.mem_insertionSort _).1 hb)

theorem mem_filter_candidates_length {available : List Word} {p : Parsed}
    {v : Word} (hv : v ∈ filter_candidates available p) : v.length = 5 := by
  rw [filter_candidates, List.mem_insertionSort, List.mem_filter] at hv
  have hok := hv.2
  unfold candOk greenPatternOk at hok
  simp only [Bool.and_eq_true] at hok
  simpa using hok.1.1.1.1

theorem filterMap_get_length {candidates : List Word} {k : Nat}
    (h5 : ∀ v ∈ candidates, v.length = 5) (hk : k < 5) :
    (candidates.filterMap (fun w => w.get? k)).length = candidates.length := by
  induction candidates with
  | nil => rfl
  | cons v cs ih =>
    have hv := h5 v (List.mem_cons_self _ _)
    have hlt : k < v.length := by omega
    have hsome : v.get? k = some (v.get ⟨k, hlt⟩) := List.get?_eq_get hlt
    rw [List.filterMap_cons, hsome]
    simp only [List.length_cons]
    rw [ih (fun v' hv' => h5 v' (List.mem_cons_of_mem _ hv'))]

theorem gain_eq_specPositionGain {candidates : List Word} {k : Nat} {ch : Char}
    (h5 : ∀ v ∈ candidates, v.length = 5) (hk : k < 5) :
    (if ch ∈ candidates.filterMap (fun w => w.get? k) then
       (if 0 < (candidates.filterMap (fun w => w.get? k)).length then
         ((candidates.filterMap (fun w => w.get? k)).count ch : ℚ) /
           ((candidates.filterMap (fun w => w.get? k)).length : ℚ) * 10
        else 0)
     else 0) = specPositionGain candidates k ch := by
  rw [specPositionGain, ← filterMap_get_length h5 hk]
  by_cases hch : ch ∈ candidates.filterMap (fun w => w.get? k)
  · rw [if_pos hch]
    have hpos : 0 < (candidates.filterMap (fun w => w.get? k)).length :=
      List.length_pos.2 (List.ne_nil_of_mem hch)
    rw [if_pos hpos]
    ring
  · rw [if_neg hch]
    have hcount : (candidates.filterMap (fun w => w.get? k)).count ch = 0 :=
      List.count_eq_zero.2 hch
    rw [hcount]
    simp

theorem get?_of_drop_cons {w : Word} {k : Nat} {ch : Char} {rest : List Char}
    (h : w.drop k = ch :: rest) : w.get? k = some ch := by
  have h0 : (w.drop k).get? 0 = some ch := by
    rw [h]
    rfl
  rw [List.get?_drop] at h0
  simpa using h0

theorem scoreLoop_eq_claim (candidates : List Word) (tested : List Char)
    (locked : List (Nat × Char)) (w : Word)
    (h5 : ∀ v ∈ candidates, v.length = 5) (hw5 : w.length = 5) :
    ∀ (suffix : List Char) (k : Nat) (seen : List Char) (s : ℚ),
      w.drop k = suffix →
      (∀ ch, ch ∈ seen ↔
        ∃ j < k, (lookupPos j locked).isNone ∧ w.get? j = some ch) →
      scoreLoop (analyze_position_frequencies candidates locked) tested locked
        (enumerate k suffix) seen s =
      s + ((enumerate k suffix).map (fun ic =>
        if (lookupPos ic.1 locked).isSome then 0
        else
          (if ∃ j < ic.1, (lookupPos j locked).isNone ∧ w.get? j = some ic.2
            then (-5 : ℚ) else 0) +
          (if ic.2 ∈ tested then 0
            else specPositionGain candidates ic.1 ic.2))).sum := by
  intro suffix
  induction suffix with
  | nil =>
    intro k seen s _ _
    simp [enumerate, scoreLoop]
  | cons ch rest ih =>
    intro k seen s hdrop hseen
    have hget : w.get? k = some ch := get?_of_drop_cons hdrop
    have hdrop' : w.drop (k + 1) = rest := by
      have h2 := congrArg (List.drop 1) hdrop
      rw [List.drop_drop] at h2
      simpa [Nat.add_comm] using h2
    have hklt : k < w.length := by
      by_contra hge
      push_neg at hge
      rw [List.drop_eq_nil_of_le hge] at hdrop
      cases hdrop
    have hk5 : k < 5 := by omega
    have henum : enumerate k (ch :: rest) = (k, ch) :: enumerate (k + 1) rest :=
      rfl
    rw [henum]
    by_cases hlock : (lookupPos k locked).isSome
    · have hlo : ¬((lookupPos k locked).isNone = true) := by
        simp only [Option.isNone_iff_eq_none]
        intro hn
        rw [hn] at hlock
        cases hlock
      have hseen' : ∀ ch', ch' ∈ seen ↔
          ∃ j < k + 1, (lookupPos j locked).isNone ∧ w.get? j = some ch' := by
        intro ch'
        rw [hseen ch']
        constructor
        · rintro ⟨j, hj, hu, hg⟩
          exact ⟨j, by omega, hu, hg⟩
        · rintro ⟨j, hj, hu, hg⟩
          rcases Nat.lt_succ_iff_lt_or_eq.1 hj with hj' | rfl
          · exact ⟨j, hj', hu, hg⟩
          · exact absurd hu (by simpa using hlo)
      have hstep : scoreLoop (analyze_position_frequencies candidates locked)
          tested locked ((k, ch) :: enumerate (k + 1) rest) seen s =
          scoreLoop (analyze_position_frequencies candidates locked)
            tested locked (enumerate (k + 1) rest) seen s := by
        simp only [scoreLoop, if_pos hlock]
      rw [hstep, ih (k + 1) seen s hdrop' hseen']
      simp only [List.map_cons, List.sum_cons, if_pos hlock]
      ring
    · have hlo : (lookupPos k locked).isNone = true := by
        cases hl : lookupPos k locked with
        | none => rfl
        | some c =>
          rw [hl] at hlock
          exact absurd rfl hlock
      have hseen' : ∀ ch', ch' ∈ ch :: seen ↔
          ∃ j < k + 1, (lookupPos j locked).isNone ∧ w.get? j = some ch' := by
        intro ch'
        rw [List.mem_cons]
        constructor
        · rintro (rfl | hmem)
          · exact ⟨k, by omega, hlo, hget⟩
          · obtain ⟨j, hj, hu, hg⟩ := (hseen ch').1 hmem
            exact ⟨j, by omega, hu, hg⟩
        · rintro ⟨j, hj, hu, hg⟩
          rcases Nat.lt_succ_iff_lt_or_eq.1 hj with hj' | rfl
          · exact Or.inr ((hseen ch').2 ⟨j, hj', hu, hg⟩)
          · left
            rw [hget] at hg
            exact (Option.some_injective _ hg).symm
      have hpen : (if ch ∈ seen then s - 5 else s) =
          s + (if ∃ j < k, (lookupPos j locked).isNone ∧ w.get? j = some ch
            then (-5 : ℚ) else 0) := by
        by_cases hch : ch ∈ seen
        · rw [if_pos hch, if_pos ((hseen ch).1 hch)]
          ring
        · rw [if_neg hch, if_neg (fun hex => hch ((hseen ch).2 hex))]
          ring
      have hpf : analyze_position_frequencies candidates locked k =
          some (candidates.filterMap (fun v => v.get? k)) := by
        unfold analyze_position_frequencies
        rw [if_pos]
        simp [hk5, hlo]
      have hstep : scoreLoop (analyze_position_frequencies candidates locked)
          tested locked ((k, ch) :: enumerate (k + 1) rest) seen s =
          scoreLoop (analyze_position_frequencies candidates locked)
            tested locked (enumerate (k + 1) rest) (ch :: seen)
            ((if ch ∈ seen then s - 5 else s) +
             (if ch ∈ tested then 0 else specPositionGain candidates k ch)) := by
        simp only [scoreLoop, if_neg hlock]
        by_cases htest : ch ∈ tested
        · rw [if_pos htest, if_pos htest]
          congr 1
          ring
        · rw [if_neg htest, if_neg htest, hpf]
          dsimp only
          rw [← gain_eq_specPositionGain h5 hk5]
          by_cases hch2 : ch ∈ candidates.filterMap (fun v => v.get? k)
          · rw [if_pos hch2, if_pos hch2]
            by_cases hpos : 0 < (candidates.filterMap (fun v => v.get? k)).length
            · rw [if_pos hpos, if_pos hpos]
            · rw [if_neg hpos, if_neg hpos]
              congr 1
              ring
          · rw [if_neg hch2, if_neg hch2]
            congr 1
            ring
      rw [hstep, ih (k + 1) (ch :: seen) _ hdrop' hseen']
      simp only [List.map_cons, List.sum_cons, if_neg hlock]
      rw [hpen]
      ring

/-- Claim C2 (corrected): `find_best_suggestions` returns a permutation
of the filtered candidates ordered by score descending with ties broken
alphabetically ascending (the stable sort over the alphabetically
sorted filter output); each candidate's score follows the claimed
per-position formula — skip locked positions, no contribution for
tested letters, `10 × count/total` otherwise — except that the 5.0
repeat-letter penalty applies only when the letter occurred earlier at
a *non-locked* position, because the source skips locked positions
before recording the letter as seen. -/
theorem find_best_suggestions_spec (available : List Word) (p : Parsed)
    (w : Word) (hw : w ∈ filter_candidates available p) :
    (find_best_suggestions available p).Perm (filter_candidates available p) ∧
    (find_best_suggestions available p).Pairwise
      (fun a b => rankKey available p b < rankKey available p a ∨
        (rankKey available p a = rankKey available p b ∧ a ≤ b)) ∧
    rankKey available p w =
      claimScoreAmended w (filter_candidates available p) (testedLetters p)
        p.green := by
  have h5 : ∀ v ∈ filter_candidates available p, v.length = 5 :=
    fun v hv => mem_filter_candidates_length hv
  refine ⟨?_, ?_, ?_⟩
  · simp only [find_best_suggestions]
    by_cases hemp : (filter_candidates available p).isEmpty
    · rw [if_pos hemp]
      rw [List.isEmpty_iff] at hemp
      rw [hemp]
    · rw [if_neg hemp]
      exact List.perm_insertionSort _ _
  · simp only [find_best_suggestions, rankKey, testedLetters]
    by_cases hemp : (filter_candidates available p).isEmpty
    · rw [if_pos hemp]
      exact List.Pairwise.nil
    · rw [if_neg hemp]
      exact insertionSort_score_stable
        (fun v => score_suggestion v
          (analyze_position_frequencies (filter_candidates available p)
            p.green)
          (p.grey ++ p.yellow.map Prod.snd ++ p.green.map Prod.snd) p.green)
        (filter_candidates available p)
        (List.sorted_insertionSort _ _)
  · have hw5 : w.length = 5 := mem_filter_candidates_length hw
    have hmain := scoreLoop_eq_claim (filter_candidates available p)
      (testedLetters p) p.green w h5 hw5 w 0 [] 0 (by simp) (by simp)
    rw [rankKey, score_suggestion, hmain, claimScoreAmended]
    ring

/-- The single-candidate corpus and constraint used as witness inputs
for the scorer claim. -/
def c2Avail : List Word := [['A', 'A', 'B', 'C', 'D']]

def c2Parsed : Parsed :=
  { word := ['A', 'A', 'B', 'C', 'D'], green := [(0, 'A')], yellow := [],
    grey := [], extra_count := 0 }

theorem find_best_suggestions_spec_witness :
    (find_best_suggestions c2Avail c2Parsed).Perm
      (filter_candidates c2Avail c2Parsed) ∧
    rankKey c2Avail c2Parsed ['A', 'A', 'B', 'C', 'D'] =
      claimScoreAmended ['A', 'A', 'B', 'C', 'D']
        (filter_candidates c2Avail c2Parsed) (testedLetters c2Parsed)
        c2Parsed.green :=
  ⟨(find_best_suggestions_spec c2Avail c2Parsed ['A', 'A', 'B', 'C', 'D']
      (by decide)).1,
   (find_best_suggestions_spec c2Avail c2Parsed ['A', 'A', 'B', 'C', 'D']
      (by decide)).2.2⟩

theorem find?_congr_mem {α : Type} (p q : α → Bool) :
    ∀ (l : List α), (∀ a ∈ l, p a = q a) → l.find? p = l.find? q := by
  intro l
  induction l with
  | nil => intro _; rfl
  | cons a t ih =>
    intro h
    have ha := h a (List.mem_cons_self _ _)
    cases hpa : p a with
    | true =>
      rw [List.find?_cons_of_pos _ hpa,
        List.find?_cons_of_pos _ (by rw [← ha]; exact hpa)]
    | false =>
      rw [List.find?_cons_of_neg _ (by simp [hpa]),
        List.find?_cons_of_neg _ (by simp [← ha, hpa])]
      exact ih (fun a' ha' => h a' (List.mem_cons_of_mem _ ha'))

theorem any_congr_mem {α : Type} (p q : α → Bool) :
    ∀ (l : List α), (∀ a ∈ l, p a = q a) → l.any p = l.any q := by
  intro l
  induction l with
  | nil => intro _; rfl
  | cons a t ih =>
    intro h
    rw [List.any_cons, List.any_cons, h a (List.mem_cons_self _ _),
      ih (fun a' ha' => h a' (List.mem_cons_of_mem _ ha'))]

theorem sampleRowAt_mem (img : Img) (yNum : Nat) :
    ∀ c ∈ sampleRowAt img yNum,
      c = greenStr ∨ c = yellowStr ∨ c = greyStr := by
  intro c hc
  unfold sampleRowAt at hc
  rw [List.mem_filterMap] at hc
  obtain ⟨i, _, hci⟩ := hc
  dsimp only at hci
  split at hci
  · cases hci
    exact classify_color_cases _
  · cases hci

/-- For classifier outputs, "green or yellow" is exactly "not grey":
the source's fallback acceptance test agrees with the spec's "at least
one non-grey classification". -/
theorem detect_eq_specFallback (img : Img) (word : Word) :
    detect_colors_simple img word = specFallback img := by
  unfold detect_colors_simple specFallback
  apply find?_congr_mem
  intro colors hcolors
  obtain ⟨r, _, rfl⟩ := List.mem_map.1 hcolors
  have hany : (sampleRowAt img r).any
      (fun c => c == greenStr || c == yellowStr) =
      (sampleRowAt img r).any (fun c => !(c == greyStr)) := by
    apply any_congr_mem
    intro c hc
    rcases sampleRowAt_mem img r c hc with rfl | rfl | rfl
    · rfl
    · rfl
    · rfl
  rw [hany]

/-- Claim C7 (confirmed): when the geometric search finds at least one
5-cell row, `process_wordle_screenshot` classifies the *last* row found
(top-to-bottom scan); when it finds none, it falls back to the fixed
relative grid of `detect_colors_simple` — equal to the spec-side
`specFallback`, which accepts the first sampled row of five
classifications containing at least one non-grey — and when neither
path yields exactly five classifications (or the fallback yields none),
the result is the failure signal `none`, never an exception. -/
theorem process_screenshot_paths (img : Img) (wordRaw : Word) :
    process_wordle_screenshot img wordRaw =
      (if (stripEnds (wordRaw.map Char.toUpper)).length ≠ 5 then none
       else
         match find_wordle_grid img with
         | [] =>
           (match specFallback img with
            | none => none
            | some colors =>
              if colors.length ≠ 5 then none
              else some (buildParsed (stripEnds (wordRaw.map Char.toUpper))
                colors))
         | r :: rs =>
           (if (extract_row_colors img ((r :: rs).getLastD [])).length ≠ 5
            then none
            else some (buildParsed (stripEnds (wordRaw.map Char.toUpper))
              (extract_row_colors img ((r :: rs).getLastD []))))) := by
  simp only [process_wordle_screenshot]
  by_cases hlen : (stripEnds (wordRaw.map Char.toUpper)).length ≠ 5
  · rw [if_pos hlen, if_pos hlen]
  · rw [if_neg hlen, if_neg hlen]
    cases hrows : find_wordle_grid img with
    | nil =>
      dsimp only
      rw [detect_eq_specFallback]
    | cons r rs =>
      dsimp only

end WordleChecker
